import Mathlib

/-!
Shallow embedding of `examples/write.rs`: a CLI that builds a ZIP archive
from filesystem paths with a selectable compression codec (deflate or zstd).

The filesystem is modelled as an abstract tree of nodes (`FsNode`); running
the program is modelled as a pure function producing the ordered list of
observable actions (`Event`) plus a final `Outcome` (normal completion,
propagated error, panic, or usage exit).  Entries written to the archive by
the `rawzip` collaborator library appear as `fileOpen` / `codecFinish` /
`entryFinish` / `dirEntry` events; console output appears as `adding`,
`warn` and `successMsg` events.
-/

namespace RawzipWrite

/-- Compression methods of `rawzip::CompressionMethod` used by the example:
`Deflate`, `Zstd`, and a stand-in `store` for every other variant, which the
example's `match` in `add_file_to_archive` rejects as unsupported. -/
inductive CompressionMethod
  | deflate
  | zstd
  | store
deriving DecidableEq

/-- Parameters of the encoder actually constructed in `add_file_to_archive`:
`flate2::write::DeflateEncoder::new(_, flate2::Compression::default())` or
`zstd::Encoder::new(_, 3)`. -/
inductive EncSpec
  | deflateDefault
  | zstdLevel (level : Nat)
deriving DecidableEq

/-- A filesystem name as returned by the OS (`OsStr`): either valid UTF-8
(so `to_str()` returns `Some`) or not (`to_str()` returns `None`). -/
inductive FsName
  | valid (s : String)
  | invalid
deriving DecidableEq

/-- Model of `OsStr::to_str`. -/
def FsName.toStr : FsName → Option String
  | .valid s => some s
  | .invalid => none

/-- Result of `fs::Metadata::modified()`: either a timestamp, measured in
seconds relative to the Unix epoch (negative means before the epoch, making
`duration_since(UNIX_EPOCH)` fail), or an unreadable timestamp (an `Err`). -/
inductive TimeResult
  | time (t : Int)
  | unreadable
deriving DecidableEq

/-- The filesystem metadata the example reads: the modification time and the
Unix permission bitmask (`None` models a non-Unix platform where
`get_unix_permissions` returns `None`). -/
structure FileMeta where
  mtime : TimeResult
  perms : Option Nat
deriving DecidableEq

/-- A node of the filesystem tree.  `file` carries the byte content and a
flag telling whether reading the bytes (`io::copy`) fails; `special` is a
directory child that is neither a regular file nor a directory (e.g. a
broken symlink or a socket). -/
inductive FsNode
  | file (name : FsName) (meta : FileMeta) (content : List Nat) (readFail : Bool)
  | dir (name : FsName) (meta : FileMeta) (children : List FsNode)
  | special (name : FsName)

/-- The error values that `main` can propagate (all are
`Box<dyn std::error::Error>` in the source). -/
inductive ZErr
  | metadataUnreadable
  | preEpoch
  | streamError
  | unsupportedCodec
deriving DecidableEq

/-- Observable actions of the program, in program order:
`createOutput` models `File::create(output_path)`; `fileOpen` models
`builder.start()` opening one archive file entry with the configured
method, timestamp, permissions, and streamed content; `codecFinish`
models `encoder.finish()` (the codec flushing its remaining bytes, with
the encoder parameters used); `entryFinish` models `entry.finish(output)`
(the container writing the entry's final framing); `dirEntry` models
`new_dir(...).create()`; `adding` models the `println!("  adding: {}")`
line; `warn` models the `eprintln!` warning for a skipped top-level input;
`archiveFinish` models `archive.finish()`; `successMsg` models the final
`println!("Successfully created ...")`. -/
inductive Event
  | createOutput (path : String)
  | fileOpen (path : String) (method : CompressionMethod) (mtime : Int)
      (perms : Option Nat) (content : List Nat)
  | codecFinish (path : String) (enc : EncSpec)
  | entryFinish (path : String)
  | dirEntry (path : String) (mtime : Int) (perms : Option Nat)
  | adding (path : String)
  | warn (path : String)
  | archiveFinish
  | successMsg (path : String)
deriving DecidableEq

/-- How a run (or sub-run) of the program ends: normally, with a propagated
error (`?`), with a panic (a failed `unwrap()`), or with the usage exit
(`std::process::exit(1)`). -/
inductive Outcome
  | ok
  | err (e : ZErr)
  | panic
  | usage
deriving DecidableEq

/-- The result of running a piece of the program: the events it emitted, in
order, and how it ended. -/
structure RunOut where
  events : List Event
  outcome : Outcome
deriving DecidableEq

/-- Result of `get_modification_time`. -/
inductive MTime
  | ok (t : Int)
  | error (e : ZErr)
deriving DecidableEq

/-- Model of `get_modification_time` (write.rs lines 69-77):
`metadata.modified()?` propagates an unreadable timestamp, and
`modified.duration_since(UNIX_EPOCH)?` fails when the timestamp is before
the epoch (the duration would be negative). -/
def get_modification_time (meta : FileMeta) : MTime :=
  match meta.mtime with
  | .unreadable => .error .metadataUnreadable
  | .time t => if t < 0 then .error .preEpoch else .ok t

/-- Model of `add_file_to_archive` (write.rs lines 79-125): read metadata,
compute the modification time (propagating failure), configure the builder
(with permissions when available), open the entry, stream the file bytes
through the per-method encoder, then finish the codec, finish the entry,
and print the `adding` line.  The `store` branch models the catch-all `_`
arm returning the "Unsupported compression method" error after the entry
was already started. -/
def add_file_to_archive (meta : FileMeta) (content : List Nat) (readFail : Bool)
    (archive_path : String) (cm : CompressionMethod) : RunOut :=
  match get_modification_time meta with
  | .error e => ⟨[], .err e⟩
  | .ok t =>
    match cm with
    | .deflate =>
        if readFail then
          ⟨[.fileOpen archive_path .deflate t meta.perms content], .err .streamError⟩
        else
          ⟨[.fileOpen archive_path .deflate t meta.perms content,
            .codecFinish archive_path .deflateDefault,
            .entryFinish archive_path,
            .adding archive_path], .ok⟩
    | .zstd =>
        if readFail then
          ⟨[.fileOpen archive_path .zstd t meta.perms content], .err .streamError⟩
        else
          ⟨[.fileOpen archive_path .zstd t meta.perms content,
            .codecFinish archive_path (.zstdLevel 3),
            .entryFinish archive_path,
            .adding archive_path], .ok⟩
    | .store =>
        ⟨[.fileOpen archive_path .store t meta.perms content], .err .unsupportedCodec⟩

/-- Name of a filesystem node (what `entry.file_name()` returns for a
directory child). -/
def nameOf : FsNode → FsName
  | .file n _ _ _ => n
  | .dir n _ _ => n
  | .special n => n

/-- Archive-path join from `add_directory_to_archive` (write.rs lines
141-145): `name` when the base is empty, `format!("{}/{}", base, name)`
otherwise. -/
def joinPath (base name : String) : String :=
  if base = "" then name else base ++ "/" ++ name

mutual

/-- Model of one iteration of the `for entry in entries` loop body of
`add_directory_to_archive` (write.rs lines 135-168): unwrap the child's
name as UTF-8 (panicking when it is not), compute the archive path, then
either add a regular file, or emit a directory entry (own metadata, path
ending in `/`) and recurse, or silently skip a child of any other kind. -/
def processChild (node : FsNode) (base_path : String) (cm : CompressionMethod) : RunOut :=
  match (nameOf node).toStr with
  | none => ⟨[], .panic⟩
  | some name_str =>
    let archive_path := joinPath base_path name_str
    match node with
    | .file _ meta content readFail =>
        add_file_to_archive meta content readFail archive_path cm
    | .dir _ meta children =>
        match get_modification_time meta with
        | .error e => ⟨[], .err e⟩
        | .ok t =>
          let dir_archive_path := archive_path ++ "/"
          let rest := add_directory_to_archive children archive_path cm
          ⟨.dirEntry dir_archive_path t meta.perms ::
             .adding dir_archive_path :: rest.events,
           rest.outcome⟩
    | .special _ => ⟨[], .ok⟩

/-- Model of `add_directory_to_archive` (write.rs lines 127-172): process
the directory's children in order, stopping at (and propagating) the first
failure. -/
def add_directory_to_archive (children : List FsNode) (base_path : String)
    (cm : CompressionMethod) : RunOut :=
  match children with
  | [] => ⟨[], .ok⟩
  | c :: rest =>
    let r := processChild c base_path cm
    match r.outcome with
    | .ok =>
        let r2 := add_directory_to_archive rest base_path cm
        ⟨r.events ++ r2.events, r2.outcome⟩
    | o => ⟨r.events, o⟩

end

/-- Segments of a character list split at `/` (used to model
`Path::file_name`). -/
def splitSlash : List Char → List (List Char)
  | [] => [[]]
  | c :: rest =>
      match splitSlash rest with
      | [] => [[]]
      | seg :: segs => if c = '/' then [] :: seg :: segs else (c :: seg) :: segs

/-- Model of `Path::file_name` on Unix for a path given as a (UTF-8)
string: the last component after dropping empty and `.` components, and
`None` when there is no such component or it is `..`. -/
def fileName (p : String) : Option String :=
  match ((splitSlash p.data).filter (fun s => !s.isEmpty && s != ['.'])).getLast? with
  | none => none
  | some s => if s = ['.', '.'] then none else some (String.mk s)

/-- What the filesystem says about one top-level input path: a regular
file (with its metadata, content and readability), a directory (with its
children), or anything else (missing path, special file, broken symlink). -/
inductive Resolution
  | file (meta : FileMeta) (content : List Nat) (readFail : Bool)
  | dir (children : List FsNode)
  | other

/-- Model of the body of the `for input_path in input_paths` loop in `main`
(write.rs lines 45-62): a regular file is added under its bare file name
(`path.file_name().unwrap()`), a directory is walked with an empty base
path, and anything else gets a warning and is skipped. -/
def processInput (resolve : String → Resolution) (cm : CompressionMethod)
    (input_path : String) : RunOut :=
  match resolve input_path with
  | .file meta content readFail =>
      match fileName input_path with
      | none => ⟨[], .panic⟩
      | some n => add_file_to_archive meta content readFail n cm
  | .dir children => add_directory_to_archive children "" cm
  | .other => ⟨[.warn input_path], .ok⟩

/-- Model of the whole `for input_path in input_paths` loop in `main`:
process the inputs in order, stopping at the first propagated failure. -/
def processInputs (resolve : String → Resolution) (cm : CompressionMethod) :
    List String → RunOut
  | [] => ⟨[], .ok⟩
  | p :: rest =>
    let r := processInput resolve cm p
    match r.outcome with
    | .ok =>
        let r2 := processInputs resolve cm rest
        ⟨r.events ++ r2.events, r2.outcome⟩
    | o => ⟨r.events, o⟩

/-- Compression method selected by `main` (write.rs lines 32-36) from the
presence of `--zstd` among the arguments. -/
def mainMethod (args : List String) : CompressionMethod :=
  if args.any (fun a => a == "--zstd") then .zstd else .deflate

/-- Positional arguments of `main` (write.rs lines 12-21): every argument
other than `--zstd`, in order. -/
def positionalArgs (args : List String) : List String :=
  args.filter (fun a => a != "--zstd")

/-- Model of `main` (write.rs lines 8-67), applied to the arguments after
the program name: with fewer than two positional arguments it prints usage
and exits with code 1 before any I/O; otherwise it creates the output
file, processes every input, and on success finishes the archive and
prints the confirmation. -/
def mainRun (args : List String) (resolve : String → Resolution) : RunOut :=
  if (positionalArgs args).length < 2 then ⟨[], .usage⟩
  else
    match positionalArgs args with
    | [] => ⟨[], .usage⟩
    | output_path :: input_paths =>
      let cm := mainMethod args
      let r := processInputs resolve cm input_paths
      match r.outcome with
      | .ok =>
          ⟨.createOutput output_path :: r.events ++
             [.archiveFinish, .successMsg output_path], .ok⟩
      | o => ⟨.createOutput output_path :: r.events, o⟩

/-- Archive paths of the file entries opened during a run, in order. -/
def fileOpenPaths (evs : List Event) : List String :=
  evs.filterMap (fun e =>
    match e with
    | .fileOpen p _ _ _ _ => some p
    | _ => none)

/-- The UTF-8 string of a name, for names known to be valid. -/
def nameStr (n : FsName) : String := n.toStr.getD ""

mutual

/-- Expected archive paths of the regular files of one subtree, relative
to `base`: a file maps to `joinPath base name`, a directory contributes
the files of its children under the extended base, anything else
contributes nothing. -/
def filesOf (base : String) : FsNode → List String
  | .file n _ _ _ => [joinPath base (nameStr n)]
  | .dir n _ children => filesUnder (joinPath base (nameStr n)) children
  | .special _ => []

/-- Expected archive paths of the regular files of a child list, relative
to `base`, in child order. -/
def filesUnder (base : String) : List FsNode → List String
  | [] => []
  | c :: rest => filesOf base c ++ filesUnder base rest

end

/-- A well-formed filesystem name: valid UTF-8, nonempty, and free of the
path separator. -/
def goodNameB : FsName → Bool
  | .valid s => s != "" && s.data.all (fun c => c != '/')
  | .invalid => false

/-- A readable, post-epoch modification time. -/
def mtimeOkB (meta : FileMeta) : Bool :=
  match meta.mtime with
  | .time t => decide (0 ≤ t)
  | .unreadable => false

mutual

/-- A fully well-behaved subtree: well-formed names, readable post-epoch
timestamps, readable file contents, and sibling lists with distinct
names. -/
def goodNodeB : FsNode → Bool
  | .file n m _ readFail => goodNameB n && mtimeOkB m && !readFail
  | .dir n m children => goodNameB n && mtimeOkB m && goodListB children
  | .special n => goodNameB n

/-- A well-behaved child list: every child well-behaved and all names
distinct, as in a real directory listing. -/
def goodListB : List FsNode → Bool
  | [] => true
  | c :: rest => goodNodeB c && goodListB rest &&
      !decide (nameStr (nameOf c) ∈ rest.map (fun d => nameStr (nameOf d)))

end

mutual

/-- Every name in the subtree is valid UTF-8 (the precondition for the
name `unwrap()`s never to panic). -/
def validNamesNode : FsNode → Bool
  | .file n _ _ _ => (FsName.toStr n).isSome
  | .dir n _ children => (FsName.toStr n).isSome && validNamesList children
  | .special n => (FsName.toStr n).isSome

/-- Every name in the child list's subtrees is valid UTF-8. -/
def validNamesList : List FsNode → Bool
  | [] => true
  | c :: rest => validNamesNode c && validNamesList rest

end

/-- One top-level input path is panic-free to process: a file input has a
well-defined base name (true of every regular file on a real filesystem)
and a directory input contains only valid UTF-8 names. -/
def resolveOkB (resolve : String → Resolution) (p : String) : Bool :=
  match resolve p with
  | .file _ _ _ => (fileName p).isSome
  | .dir children => validNamesList children
  | .other => true

/-- First path segment of a string (characters before the first `/`). -/
def headSeg (s : String) : String :=
  String.mk (s.data.takeWhile (fun c => c != '/'))

/-- Encoder parameters the example constructs for a compression method:
zstd at level 3, deflate at the default level (write.rs lines 100-117). -/
def encFor : CompressionMethod → EncSpec
  | .zstd => .zstdLevel 3
  | _ => .deflateDefault

/-- An event is consistent with the run-wide compression choice: file
entries are opened with that method and codecs are finalized with that
method's fixed parameters. -/
def eventMethodOk (cm : CompressionMethod) : Event → Bool
  | .fileOpen _ m _ _ _ => m == cm
  | .codecFinish _ enc => enc == encFor cm
  | _ => true

/-- Every opened file entry is completely finalized in order: each
`fileOpen` is immediately followed by `codecFinish` and then `entryFinish`
of the same path, and neither finish event occurs anywhere else. -/
def blocksB : List Event → Bool
  | [] => true
  | .fileOpen p _ _ _ _ :: .codecFinish q _ :: .entryFinish r :: rest =>
      p == q && p == r && blocksB rest
  | .fileOpen _ _ _ _ _ :: _ => false
  | .codecFinish _ _ :: _ => false
  | .entryFinish _ :: _ => false
  | _ :: rest => blocksB rest

/-- Like `blocksB`, but the trace may also end with a single `fileOpen`
whose entry was abandoned by a propagated failure before either finalize
step; in particular no `entryFinish` ever precedes its `codecFinish`. -/
def phasedB : List Event → Bool
  | [] => true
  | [.fileOpen _ _ _ _ _] => true
  | .fileOpen p _ _ _ _ :: .codecFinish q _ :: .entryFinish r :: rest =>
      p == q && p == r && phasedB rest
  | .fileOpen _ _ _ _ _ :: _ => false
  | .codecFinish _ _ :: _ => false
  | .entryFinish _ :: _ => false
  | _ :: rest => phasedB rest

/-- A small sample tree used to exercise the main theorems on concrete
input: a file `a` and a directory `d` containing a file `b`. -/
def sampleTree : List FsNode :=
  [FsNode.file (.valid "a") ⟨.time 1, none⟩ [10] false,
   FsNode.dir (.valid "d") ⟨.time 2, some 493⟩
     [FsNode.file (.valid "b") ⟨.time 3, none⟩ [11] false]]

end RawzipWrite

namespace RawzipWrite

theorem fs_induction {P : FsNode → Prop} {Q : List FsNode → Prop}
    (hfile : ∀ n m c r, P (FsNode.file n m c r))
    (hdir : ∀ n m ch, Q ch → P (FsNode.dir n m ch))
    (hspec : ∀ n, P (FsNode.special n))
    (hnil : Q [])
    (hcons : ∀ c rest, P c → Q rest → Q (c :: rest)) :
    (∀ t, P t) ∧ (∀ l, Q l) :=
  have hP : ∀ t, P t := fun t =>
    FsNode.rec (motive_1 := P) (motive_2 := Q) hfile hdir hspec hnil hcons t
  ⟨hP, fun l => List.rec hnil (fun c rest ih => hcons c rest (hP c) ih) l⟩

theorem blocksB_append {a b : List Event} (ha : blocksB a = true)
    (hb : blocksB b = true) : blocksB (a ++ b) = true := by
  induction a using blocksB.induct with
  | _ => simp_all [blocksB] <;> exact ha.1.1.symm.trans ha.1.2

theorem phasedB_append {a b : List Event} (ha : blocksB a = true)
    (hb : phasedB b = true) : phasedB (a ++ b) = true := by
  induction a using blocksB.induct with
  | _ => simp_all [blocksB, phasedB] <;> exact ha.1.1.symm.trans ha.1.2

theorem blocksB_phasedB {a : List Event} (ha : blocksB a = true) :
    phasedB a = true := by
  have := phasedB_append (b := []) ha rfl
  simpa using this

/-- C7: with fewer than two positional arguments, the program prints the
usage message to the error stream and exits with code 1 (outcome `usage`)
before performing any I/O: the event trace is empty, so in particular no
output file is created. -/
theorem c7_usage_exit (args : List String) (resolve : String → Resolution)
    (h : (positionalArgs args).length < 2) :
    mainRun args resolve = ⟨[], .usage⟩ ∧
    ∀ p, Event.createOutput p ∉ (mainRun args resolve).events := by
  have h1 : mainRun args resolve = ⟨[], .usage⟩ := by simp [mainRun, h]
  exact ⟨h1, by simp [h1]⟩

/-- C7 witness: the concrete invocation with only `out.zip` hits the usage
exit with no events. -/
theorem c7_witness :
    (positionalArgs ["out.zip"]).length < 2 ∧
    mainRun ["out.zip"] (fun _ => Resolution.other) = ⟨[], .usage⟩ :=
  ⟨by decide, (c7_usage_exit ["out.zip"] (fun _ => Resolution.other) (by decide)).1⟩

/-- C9: a directory child that is neither a regular file nor a directory
(valid UTF-8 name) is skipped silently during recursive traversal: no
archive entry, no warning, no event at all, and the remaining children are
processed exactly as if the child were absent. -/
theorem c9_special_child_silent (name : FsName) (s : String) (base : String)
    (cm : CompressionMethod) (rest : List FsNode) (h : FsName.toStr name = some s) :
    processChild (.special name) base cm = ⟨[], .ok⟩ ∧
    add_directory_to_archive (.special name :: rest) base cm =
      add_directory_to_archive rest base cm := by
  have h1 : processChild (.special name) base cm = ⟨[], .ok⟩ := by
    simp [processChild, nameOf, h]
  refine ⟨h1, ?_⟩
  rw [add_directory_to_archive]
  simp [h1]

/-- C9 witness: a concrete special child (a socket named `sock`) produces
no events and leaves the traversal unchanged. -/
theorem c9_witness :
    processChild (.special (.valid "sock")) "" .deflate = ⟨[], .ok⟩ ∧
    add_directory_to_archive [.special (.valid "sock")] "" .deflate =
      add_directory_to_archive [] "" .deflate :=
  c9_special_child_silent (.valid "sock") "sock" "" .deflate [] rfl

/-- C8: a top-level input path that is neither a file nor a directory only
emits a warning, completes with outcome `ok`, and the remaining inputs are
processed exactly as without it, so subsequent valid inputs are still
archived. -/
theorem c8_top_level_skip (resolve : String → Resolution) (cm : CompressionMethod)
    (p : String) (rest : List String) (h : resolve p = .other) :
    processInput resolve cm p = ⟨[.warn p], .ok⟩ ∧
    processInputs resolve cm (p :: rest) =
      ⟨.warn p :: (processInputs resolve cm rest).events,
       (processInputs resolve cm rest).outcome⟩ := by
  have h1 : processInput resolve cm p = ⟨[.warn p], .ok⟩ := by
    simp [processInput, h]
  refine ⟨h1, ?_⟩
  rw [processInputs]
  simp [h1]

/-- C8 witness: with a missing input `gone` followed by a valid file
input, the run emits the warning and then processes the valid input
unchanged. -/
theorem c8_witness :
    processInputs (fun q => if q = "gone" then .other else
        .file ⟨.time 3, none⟩ [1] false) .deflate ["gone", "ok.txt"] =
      ⟨Event.warn "gone" ::
        (processInputs (fun q => if q = "gone" then .other else
          .file ⟨.time 3, none⟩ [1] false) .deflate ["ok.txt"]).events,
       (processInputs (fun q => if q = "gone" then .other else
          .file ⟨.time 3, none⟩ [1] false) .deflate ["ok.txt"]).outcome⟩ :=
  (c8_top_level_skip _ .deflate "gone" ["ok.txt"] (by simp)).2

/-- C5: for every directory discovered during traversal (valid name,
readable timestamp), a directory entry is emitted whose archive path is
the directory's path followed by `/`, carrying the directory's own
timestamp and permissions, strictly before the events of the recursion
into its children.  The entry is created by `new_dir` and therefore has no
content; the model's `dirEntry` event carries no content by
construction. -/
theorem c5_dir_entry_before_recursion (name : FsName) (s : String)
    (meta : FileMeta) (children : List FsNode) (base : String)
    (cm : CompressionMethod) (t : Int) (hn : FsName.toStr name = some s)
    (ht : get_modification_time meta = .ok t) :
    processChild (.dir name meta children) base cm =
      ⟨.dirEntry (joinPath base s ++ "/") t meta.perms ::
        .adding (joinPath base s ++ "/") ::
        (add_directory_to_archive children (joinPath base s) cm).events,
       (add_directory_to_archive children (joinPath base s) cm).outcome⟩ ∧
    ∃ pre, joinPath base s ++ "/" = pre ++ "/" := by
  constructor
  · simp [processChild, nameOf, hn, ht]
  · exact ⟨joinPath base s, rfl⟩

/-- C5 witness: a concrete empty directory `img` under base `docs`
produces exactly its zero-length directory entry `docs/img/`. -/
theorem c5_witness :
    processChild (.dir (.valid "img") ⟨.time 7, some 493⟩ []) "docs" .deflate =
      ⟨[.dirEntry "docs/img/" 7 (some 493), .adding "docs/img/"], .ok⟩ := by
  have h := (c5_dir_entry_before_recursion (.valid "img") "img" ⟨.time 7, some 493⟩
    [] "docs" .deflate 7 rfl rfl).1
  simpa [add_directory_to_archive, joinPath] using h

/-- C2 counterexample: in a directory containing a file `a` whose
modification time is unreadable followed by a perfectly good file `b`, the
traversal does not skip the metadata and continue — it aborts with the
metadata error, emitting no events at all: `b` is never archived, refuting
the claim that the caller continues traversal rather than aborting. -/
theorem c2_counterexample :
    (add_directory_to_archive
        [FsNode.file (.valid "a") ⟨.unreadable, none⟩ [] false,
         FsNode.file (.valid "b") ⟨.time 5, none⟩ [] false] "" .deflate).outcome =
      .err .metadataUnreadable ∧
    fileOpenPaths (add_directory_to_archive
        [FsNode.file (.valid "a") ⟨.unreadable, none⟩ [] false,
         FsNode.file (.valid "b") ⟨.time 5, none⟩ [] false] "" .deflate).events =
      [] := by
  exact ⟨rfl, rfl⟩

/-- C2 (amended): when reading a filesystem entry's modification
timestamp fails, or the timestamp is before the Unix epoch, the operation
fails with a metadata error (unreadable or pre-epoch) which the caller
propagates as fatal: the entry is not added and directory traversal aborts
immediately with that error, skipping nothing and continuing nowhere. -/
theorem c2_metadata_error_fatal (meta : FileMeta) (e : ZErr) (content : List Nat)
    (readFail : Bool) (path : String) (cm : CompressionMethod) (name : FsName)
    (s : String) (rest : List FsNode) (base : String)
    (hg : get_modification_time meta = .error e) (hn : FsName.toStr name = some s) :
    add_file_to_archive meta content readFail path cm = ⟨[], .err e⟩ ∧
    add_directory_to_archive (FsNode.file name meta content readFail :: rest) base cm =
      ⟨[], .err e⟩ ∧
    (e = .metadataUnreadable ∨ e = .preEpoch) := by
  have h1 : add_file_to_archive meta content readFail path cm = ⟨[], .err e⟩ := by
    simp [add_file_to_archive, hg]
  have h2 : processChild (FsNode.file name meta content readFail) base cm =
      ⟨[], .err e⟩ := by
    simp [processChild, nameOf, hn, add_file_to_archive, hg]
  refine ⟨h1, ?_, ?_⟩
  · rw [add_directory_to_archive]
    simp [h2]
  · unfold get_modification_time at hg
    rcases hm : meta.mtime with t | _ <;> rw [hm] at hg <;> split at hg <;>
      (try split at hg) <;> simp_all

/-- C2 witness: a concrete file with a pre-epoch timestamp makes both
`add_file_to_archive` and the surrounding traversal abort with the
pre-epoch metadata error. -/
theorem c2_witness :
    add_file_to_archive ⟨.time (-3), none⟩ [] false "a" .deflate =
      ⟨[], .err .preEpoch⟩ ∧
    add_directory_to_archive
        [FsNode.file (.valid "a") ⟨.time (-3), none⟩ [] false] "" .deflate =
      ⟨[], .err .preEpoch⟩ :=
  have h := c2_metadata_error_fatal ⟨.time (-3), none⟩ .preEpoch [] false "a"
    .deflate (.valid "a") "a" [] "" (by decide) rfl
  ⟨h.1, h.2.1⟩

theorem splitSlash_no_slash (l : List Char) :
    ∀ s ∈ splitSlash l, ∀ c ∈ s, c ≠ '/' := by
  induction l with
  | nil =>
    intro s hs c hc
    simp [splitSlash] at hs
    subst hs
    simp at hc
  | cons a rest ih =>
    intro s hs c hc
    rcases hsp : splitSlash rest with _ | ⟨seg, segs⟩
    · simp only [splitSlash, hsp] at hs
      simp at hs
      subst hs
      simp at hc
    · simp only [splitSlash, hsp] at hs
      rw [hsp] at ih
      by_cases ha : a = '/'
      · rw [if_pos ha] at hs
        rcases List.mem_cons.mp hs with h | h
        · subst h
          simp at hc
        · exact ih s h c hc
      · rw [if_neg ha] at hs
        rcases List.mem_cons.mp hs with h | h
        · subst h
          rcases List.mem_cons.mp hc with h2 | h2
          · subst h2
            exact ha
          · exact ih seg (List.mem_cons_self _ _) c h2
        · exact ih s (List.mem_cons_of_mem _ h) c hc

theorem fileName_no_slash (p : String) (n : String) (h : fileName p = some n) :
    n.data.all (fun c => c != '/') = true := by
  rcases hl : ((splitSlash p.data).filter
      (fun s => !s.isEmpty && s != ['.'])).getLast? with _ | s
  · simp only [fileName, hl] at h
    simp at h
  · simp only [fileName, hl] at h
    split at h
    · simp at h
    · have hn : n = String.mk s := by
        injection h with h2
        exact h2.symm
      subst hn
      have hmem : s ∈ (splitSlash p.data).filter (fun s => !s.isEmpty && s != ['.']) := by
        obtain ⟨hne, hx⟩ := List.mem_getLast?_eq_getLast (x := s) (by rw [hl]; rfl)
        rw [hx]
        exact List.getLast_mem hne
      have hmem2 : s ∈ splitSlash p.data := List.mem_of_mem_filter hmem
      have hns := splitSlash_no_slash p.data s hmem2
      simp only [List.all_eq_true]
      intro c hc
      simpa using hns c hc

theorem add_file_paths_sub (meta : FileMeta) (content : List Nat) (readFail : Bool)
    (path : String) (cm : CompressionMethod) :
    ∀ q ∈ fileOpenPaths (add_file_to_archive meta content readFail path cm).events,
      q = path := by
  rcases hg : get_modification_time meta with t | e <;>
    cases cm <;> cases readFail <;>
    simp [add_file_to_archive, hg, fileOpenPaths]

theorem add_file_ok_paths (meta : FileMeta) (content : List Nat) (path : String)
    (cm : CompressionMethod) (hm : mtimeOkB meta = true)
    (hcm : cm = .deflate ∨ cm = .zstd) :
    (add_file_to_archive meta content false path cm).outcome = .ok ∧
    fileOpenPaths (add_file_to_archive meta content false path cm).events = [path] := by
  unfold mtimeOkB at hm
  rcases hmt : meta.mtime with t | _
  · rw [hmt] at hm
    have ht : ¬t < 0 := by
      have := of_decide_eq_true hm
      omega
    have hg : get_modification_time meta = .ok t := by
      simp [get_modification_time, hmt, ht]
    rcases hcm with h | h <;> subst h <;>
      simp [add_file_to_archive, hg, fileOpenPaths]
  · rw [hmt] at hm
    simp at hm

/-- C4: for every top-level input path that resolves to a regular file,
every file entry the program opens for it uses exactly the path's base
name (the model of `Path::file_name`), the base name contains no `/` (so
no parent directory segment of the input path can appear), and under
normal conditions the single entry opened is exactly the base name,
regardless of the input path's depth. -/
theorem c4_top_level_file_bare_name (resolve : String → Resolution)
    (cm : CompressionMethod) (p : String) (meta : FileMeta) (content : List Nat)
    (readFail : Bool) (n : String) (hres : resolve p = .file meta content readFail)
    (hn : fileName p = some n) :
    (∀ q ∈ fileOpenPaths (processInput resolve cm p).events, q = n) ∧
    n.data.all (fun c => c != '/') = true ∧
    (mtimeOkB meta = true → readFail = false → (cm = .deflate ∨ cm = .zstd) →
      fileOpenPaths (processInput resolve cm p).events = [n]) := by
  have hpi : processInput resolve cm p = add_file_to_archive meta content readFail n cm := by
    simp [processInput, hres, hn]
  refine ⟨?_, fileName_no_slash p n hn, ?_⟩
  · rw [hpi]
    exact add_file_paths_sub meta content readFail n cm
  · intro h1 h2 h3
    rw [hpi, h2]
    exact (add_file_ok_paths meta content n cm h1 h3).2

/-- C4 witness: the deep input path `some/deep/dir/a.txt` produces the
single archive path `a.txt`. -/
theorem c4_witness :
    fileName "some/deep/dir/a.txt" = some "a.txt" ∧
    fileOpenPaths (processInput (fun _ => .file ⟨.time 5, some 420⟩ [104] false)
      .zstd "some/deep/dir/a.txt").events = ["a.txt"] :=
  ⟨by decide,
    (c4_top_level_file_bare_name (fun _ => .file ⟨.time 5, some 420⟩ [104] false)
      .zstd "some/deep/dir/a.txt" ⟨.time 5, some 420⟩ [104] false "a.txt"
      rfl (by decide)).2.2 (by decide) rfl (Or.inr rfl)⟩

theorem add_file_methods (meta : FileMeta) (content : List Nat) (readFail : Bool)
    (path : String) (cm : CompressionMethod) :
    (add_file_to_archive meta content readFail path cm).events.all
      (eventMethodOk cm) = true := by
  rcases hg : get_modification_time meta with t | e <;> cases cm <;> cases readFail <;>
    simp [add_file_to_archive, hg, eventMethodOk, encFor]

theorem walk_methods (cm : CompressionMethod) :
    (∀ t base, (processChild t base cm).events.all (eventMethodOk cm) = true) ∧
    (∀ l base, (add_directory_to_archive l base cm).events.all (eventMethodOk cm) = true) := by
  refine fs_induction ?_ ?_ ?_ ?_ ?_
  · intro n m c r base
    rcases hn : FsName.toStr n with _ | s
    · simp [processChild, nameOf, hn]
    · have := add_file_methods m c r (joinPath base s) cm
      simpa [processChild, nameOf, hn] using this
  · intro n m ch ih base
    rcases hn : FsName.toStr n with _ | s
    · simp [processChild, nameOf, hn]
    · rcases hg : get_modification_time m with t | e
      · have := ih (joinPath base s)
        simp [processChild, nameOf, hn, hg, eventMethodOk, this]
      · simp [processChild, nameOf, hn, hg]
  · intro n base
    rcases hn : FsName.toStr n with _ | s <;> simp [processChild, nameOf, hn]
  · intro base
    simp [add_directory_to_archive]
  · intro c rest ihc ihr base
    rw [add_directory_to_archive]
    rcases ho : (processChild c base cm).outcome with _ | e | _ | _ <;>
      simp [ho, ihc base, ihr base]

theorem processInputs_methods (resolve : String → Resolution)
    (cm : CompressionMethod) (inputs : List String) :
    (processInputs resolve cm inputs).events.all (eventMethodOk cm) = true := by
  induction inputs with
  | nil => simp [processInputs]
  | cons p rest ih =>
    rw [processInputs]
    have hp : (processInput resolve cm p).events.all (eventMethodOk cm) = true := by
      rcases hr : resolve p with ⟨m, co, rf⟩ | ch | _
      · rcases hf : fileName p with _ | n
        · simp [processInput, hr, hf]
        · simpa [processInput, hr, hf] using add_file_methods m co rf n cm
      · simpa [processInput, hr] using (walk_methods cm).2 ch ""
      · simp [processInput, hr, eventMethodOk]
    rcases ho : (processInput resolve cm p).outcome with _ | e | _ | _ <;>
      simp [ho, hp, ih]

/-- C6: the compression method is selected once per run from the
presence of `--zstd` (zstd when present, deflate otherwise), and every
event of the whole run is consistent with that single choice: every file
entry is opened with that method and every codec finalization uses that
method's fixed encoder parameters (zstd at level 3, deflate at the
default level). -/
theorem c6_codec_fixed_per_run (args : List String) (resolve : String → Resolution) :
    (mainRun args resolve).events.all (eventMethodOk (mainMethod args)) = true ∧
    mainMethod args =
      (if args.any (fun a => a == "--zstd") then .zstd else .deflate) ∧
    encFor .zstd = .zstdLevel 3 ∧ encFor .deflate = .deflateDefault := by
  refine ⟨?_, rfl, rfl, rfl⟩
  rw [mainRun]
  by_cases h : (positionalArgs args).length < 2
  · simp [h]
  · rw [if_neg h]
    rcases hp : positionalArgs args with _ | ⟨out, inputs⟩
    · simp
    · have hall := processInputs_methods resolve (mainMethod args) inputs
      rcases ho : (processInputs resolve (mainMethod args) inputs).outcome with _ | e | _ | _ <;>
        simp [ho, hall, eventMethodOk]

theorem add_file_no_panic (meta : FileMeta) (content : List Nat) (readFail : Bool)
    (path : String) (cm : CompressionMethod) :
    (add_file_to_archive meta content readFail path cm).outcome ≠ .panic := by
  rcases hg : get_modification_time meta with t | e <;> cases cm <;> cases readFail <;>
    simp [add_file_to_archive, hg]

theorem walk_no_panic :
    (∀ t, validNamesNode t = true → ∀ base cm,
      (processChild t base cm).outcome ≠ .panic) ∧
    (∀ l, validNamesList l = true → ∀ base cm,
      (add_directory_to_archive l base cm).outcome ≠ .panic) := by
  refine fs_induction ?_ ?_ ?_ ?_ ?_
  · intro n m c r hv base cm
    simp only [validNamesNode] at hv
    rcases hn : FsName.toStr n with _ | s
    · rw [hn] at hv
      simp at hv
    · have := add_file_no_panic m c r (joinPath base s) cm
      simpa [processChild, nameOf, hn] using this
  · intro n m ch ih hv base cm
    simp only [validNamesNode] at hv
    rcases hn : FsName.toStr n with _ | s
    · rw [hn] at hv
      simp at hv
    · rw [hn] at hv
      simp at hv
      rcases hg : get_modification_time m with t | e
      · simp [processChild, nameOf, hn, hg]
        exact ih hv (joinPath base s) cm
      · simp [processChild, nameOf, hn, hg]
  · intro n hv base cm
    simp only [validNamesNode] at hv
    rcases hn : FsName.toStr n with _ | s
    · rw [hn] at hv
      simp at hv
    · simp [processChild, nameOf, hn]
  · intro _ base cm
    simp [add_directory_to_archive]
  · intro c rest ihc ihr hv base cm
    simp only [validNamesList, Bool.and_eq_true] at hv
    rw [add_directory_to_archive]
    rcases ho : (processChild c base cm).outcome with _ | e | _ | _
    · simp [ho]
      exact ihr hv.2 base cm
    · simp [ho]
    · exact absurd ho (ihc hv.1 base cm)
    · simp [ho]

theorem processInputs_no_panic (resolve : String → Resolution)
    (cm : CompressionMethod) (hok : ∀ p, resolveOkB resolve p = true)
    (inputs : List String) :
    (processInputs resolve cm inputs).outcome ≠ .panic := by
  induction inputs with
  | nil => simp [processInputs]
  | cons p rest ih =>
    rw [processInputs]
    have hp : (processInput resolve cm p).outcome ≠ .panic := by
      have h := hok p
      rcases hr : resolve p with ⟨m, co, rf⟩ | ch | _
      · simp only [resolveOkB, hr] at h
        rcases hf : fileName p with _ | n
        · rw [hf] at h
          simp at h
        · have := add_file_no_panic m co rf n cm
          simpa [processInput, hr, hf] using this
      · simp only [resolveOkB, hr] at h
        simpa [processInput, hr] using walk_no_panic.2 ch h "" cm
      · simp [processInput, hr]
    rcases ho : (processInput resolve cm p).outcome with _ | e | _ | _
    · simp [ho]
      exact ih
    · simp [ho]
    · exact absurd ho hp
    · simp [ho]

/-- C10: panic freedom holds exactly under the valid-UTF-8-names
precondition.  First, when every top-level input is panic-free to process
(directory inputs contain only valid UTF-8 names; file inputs have a
well-defined base name, which is true of every regular file on a real
filesystem), the whole run never panics.  Second, any discovered directory
child whose name is not valid UTF-8 makes the name `unwrap()` panic
unconditionally, producing no further events. -/
theorem c10_panic_freedom :
    (∀ args resolve, (∀ p, resolveOkB resolve p = true) →
      (mainRun args resolve).outcome ≠ .panic) ∧
    (∀ t base cm, (nameOf t).toStr = none →
      processChild t base cm = ⟨[], .panic⟩) := by
  constructor
  · intro args resolve hok
    rw [mainRun]
    by_cases h : (positionalArgs args).length < 2
    · simp [h]
    · rw [if_neg h]
      rcases hp : positionalArgs args with _ | ⟨out, inputs⟩
      · simp
      · have hnp := processInputs_no_panic resolve (mainMethod args) hok inputs
        rcases ho : (processInputs resolve (mainMethod args) inputs).outcome with _ | e | _ | _
        · simp [ho]
        · simp [ho]
        · exact absurd ho hnp
        · simp [ho]
  · intro t base cm h
    simp [processChild, h]

/-- C10 witness: a run over a missing input never panics, and a child
with a non-UTF-8 name panics immediately. -/
theorem c10_witness :
    (mainRun ["out.zip", "in.txt"] (fun _ => Resolution.other)).outcome ≠ .panic ∧
    processChild (.special .invalid) "" .deflate = ⟨[], .panic⟩ :=
  ⟨c10_panic_freedom.1 ["out.zip", "in.txt"] (fun _ => Resolution.other)
      (fun _ => rfl),
   c10_panic_freedom.2 (.special .invalid) "" .deflate rfl⟩

theorem add_file_phases (meta : FileMeta) (content : List Nat) (readFail : Bool)
    (path : String) (cm : CompressionMethod) :
    ((add_file_to_archive meta content readFail path cm).outcome = .ok →
      blocksB (add_file_to_archive meta content readFail path cm).events = true) ∧
    phasedB (add_file_to_archive meta content readFail path cm).events = true := by
  rcases hg : get_modification_time meta with t | e <;> cases cm <;> cases readFail <;>
    simp [add_file_to_archive, hg, blocksB, phasedB]

theorem walk_phases :
    (∀ t, ∀ base cm, ((processChild t base cm).outcome = .ok →
       blocksB (processChild t base cm).events = true) ∧
       phasedB (processChild t base cm).events = true) ∧
    (∀ l, ∀ base cm, ((add_directory_to_archive l base cm).outcome = .ok →
       blocksB (add_directory_to_archive l base cm).events = true) ∧
       phasedB (add_directory_to_archive l base cm).events = true) := by
  refine fs_induction ?_ ?_ ?_ ?_ ?_
  · intro n m c r base cm
    rcases hn : FsName.toStr n with _ | s
    · simp [processChild, nameOf, hn, phasedB]
    · simpa [processChild, nameOf, hn] using add_file_phases m c r (joinPath base s) cm
  · intro n m ch ih base cm
    rcases hn : FsName.toStr n with _ | s
    · simp [processChild, nameOf, hn, phasedB]
    · rcases hg : get_modification_time m with t | e
      · have ih2 := ih (joinPath base s) cm
        constructor
        · intro hok
          simp only [processChild, nameOf, hn, hg] at hok ⊢
          simp [blocksB] at hok ⊢
          exact ih2.1 hok
        · simp [processChild, nameOf, hn, hg, phasedB]
          exact ih2.2
      · simp [processChild, nameOf, hn, hg, phasedB]
  · intro n base cm
    rcases hn : FsName.toStr n with _ | s <;>
      simp [processChild, nameOf, hn, phasedB, blocksB]
  · intro base cm
    simp [add_directory_to_archive, blocksB, phasedB]
  · intro c rest ihc ihr base cm
    rw [add_directory_to_archive]
    rcases ho : (processChild c base cm).outcome with _ | e | _ | _
    · have hcB : blocksB (processChild c base cm).events = true := (ihc base cm).1 ho
      simp only [ho]
      constructor
      · intro h2
        exact blocksB_append hcB ((ihr base cm).1 (by simpa using h2))
      · exact phasedB_append hcB ((ihr base cm).2)
    · simp [ho]
      exact (ihc base cm).2
    · simp [ho]
      exact (ihc base cm).2
    · simp [ho]
      exact (ihc base cm).2

theorem processInput_phases (resolve : String → Resolution) (cm : CompressionMethod)
    (p : String) :
    ((processInput resolve cm p).outcome = .ok →
      blocksB (processInput resolve cm p).events = true) ∧
    phasedB (processInput resolve cm p).events = true := by
  rcases hr : resolve p with ⟨m, co, rf⟩ | ch | _
  · rcases hf : fileName p with _ | n
    · simp [processInput, hr, hf, phasedB]
    · simpa [processInput, hr, hf] using add_file_phases m co rf n cm
  · simpa [processInput, hr] using walk_phases.2 ch "" cm
  · simp [processInput, hr, blocksB, phasedB]

theorem processInputs_phases (resolve : String → Resolution) (cm : CompressionMethod)
    (inputs : List String) :
    ((processInputs resolve cm inputs).outcome = .ok →
      blocksB (processInputs resolve cm inputs).events = true) ∧
    phasedB (processInputs resolve cm inputs).events = true := by
  induction inputs with
  | nil => simp [processInputs, blocksB, phasedB]
  | cons p rest ih =>
    rw [processInputs]
    rcases ho : (processInput resolve cm p).outcome with _ | e | _ | _
    · have hcB := (processInput_phases resolve cm p).1 ho
      simp only [ho]
      constructor
      · intro h2
        exact blocksB_append hcB (ih.1 (by simpa using h2))
      · exact phasedB_append hcB ih.2
    · simp [ho]
      exact (processInput_phases resolve cm p).2
    · simp [ho]
      exact (processInput_phases resolve cm p).2
    · simp [ho]
      exact (processInput_phases resolve cm p).2

/-- C3: in every run, each opened file entry is finalized in two phases
in fixed order — the codec finalize immediately follows the open and the
entry finalize immediately follows the codec finalize (`phasedB` also
shows an entry finalize never precedes its codec finalize, and that a lone
un-finalized open can only be the final event of an aborted run) — and on
the success path every opened entry completes both phases (`blocksB`). -/
theorem c3_two_phase_finalize (args : List String) (resolve : String → Resolution) :
    ((mainRun args resolve).outcome = .ok →
      blocksB (mainRun args resolve).events = true) ∧
    phasedB (mainRun args resolve).events = true := by
  rw [mainRun]
  by_cases h : (positionalArgs args).length < 2
  · simp [h, phasedB]
  · rw [if_neg h]
    rcases hp : positionalArgs args with _ | ⟨out, inputs⟩
    · simp [phasedB]
    · have hpi := processInputs_phases resolve (mainMethod args) inputs
      rcases ho : (processInputs resolve (mainMethod args) inputs).outcome with _ | e | _ | _
      · have hb := hpi.1 ho
        have hb2 : blocksB ((processInputs resolve (mainMethod args) inputs).events ++
            [.archiveFinish, .successMsg out]) = true :=
          blocksB_append hb (by simp [blocksB])
        simp [ho, blocksB, phasedB]
        exact ⟨hb2, blocksB_phasedB hb2⟩
      · simp [ho, blocksB, phasedB]
        exact hpi.2
      · simp [ho, blocksB, phasedB]
        exact hpi.2
      · simp [ho, blocksB, phasedB]
        exact hpi.2

/-- C3 witness: a concrete successful run satisfies the complete
two-phase discipline. -/
theorem c3_witness :
    (mainRun ["o", "a"] (fun _ => Resolution.file ⟨.time 1, none⟩ [] false)).outcome = .ok ∧
    blocksB (mainRun ["o", "a"]
      (fun _ => Resolution.file ⟨.time 1, none⟩ [] false)).events = true ∧
    phasedB (mainRun ["o", "a"]
      (fun _ => Resolution.file ⟨.time 1, none⟩ [] false)).events = true :=
  ⟨rfl,
   (c3_two_phase_finalize ["o", "a"] (fun _ => Resolution.file ⟨.time 1, none⟩ [] false)).1 rfl,
   (c3_two_phase_finalize ["o", "a"] (fun _ => Resolution.file ⟨.time 1, none⟩ [] false)).2⟩

theorem str_append_left_cancel {a x y : String} (h : a ++ x = a ++ y) : x = y := by
  apply String.ext
  have h2 := congrArg String.data h
  simp only [String.data_append] at h2
  exact List.append_cancel_left h2

theorem slash_append_ne_empty (b n : String) : b ++ "/" ++ n ≠ "" := by
  intro h
  have h2 := congrArg String.data h
  simp [String.data_append] at h2

theorem joinPath_empty_base (n : String) : joinPath "" n = n := by
  simp [joinPath]

theorem joinPath_ne_empty (b n : String) (hn : n ≠ "") : joinPath b n ≠ "" := by
  by_cases hb : b = ""
  · simpa [joinPath, hb] using hn
  · rw [joinPath, if_neg hb]
    exact slash_append_ne_empty b n

theorem join_assoc (b n m : String) (hn : n ≠ "") :
    joinPath (joinPath b n) m = joinPath b (joinPath n m) := by
  by_cases hb : b = ""
  · simp [joinPath_empty_base, hb]
  · have h1 : joinPath b n = b ++ "/" ++ n := by rw [joinPath, if_neg hb]
    have h2 : joinPath n m = n ++ "/" ++ m := by rw [joinPath, if_neg hn]
    rw [h1, h2, joinPath, if_neg (slash_append_ne_empty b n), joinPath, if_neg hb]
    apply String.ext
    simp [String.data_append, List.append_assoc]

theorem joinPath_injective (m : String) (hm : m ≠ "") :
    Function.Injective (joinPath m) := by
  intro x y h
  rw [joinPath, if_neg hm, joinPath, if_neg hm] at h
  exact str_append_left_cancel h

theorem goodName_spec (n : FsName) (h : goodNameB n = true) :
    FsName.toStr n = some (nameStr n) ∧ nameStr n ≠ "" ∧
      ∀ c ∈ (nameStr n).data, c ≠ '/' := by
  cases n with
  | valid s =>
    simp only [goodNameB, Bool.and_eq_true] at h
    obtain ⟨hne, hall⟩ := h
    refine ⟨rfl, ?_, ?_⟩
    · simpa [nameStr, FsName.toStr] using hne
    · intro c hc
      have := List.all_eq_true.mp hall c (by simpa [nameStr, FsName.toStr] using hc)
      simpa using this
  | invalid => simp [goodNameB] at h

theorem mtimeOk_gmt (meta : FileMeta) (h : mtimeOkB meta = true) :
    ∃ t, get_modification_time meta = .ok t := by
  unfold mtimeOkB at h
  rcases hmt : meta.mtime with t | _
  · rw [hmt] at h
    have ht : ¬t < 0 := by
      have := of_decide_eq_true h
      omega
    exact ⟨t, by simp [get_modification_time, hmt, ht]⟩
  · rw [hmt] at h
    simp at h

theorem files_map :
    (∀ t, goodNodeB t = true → ∀ s, s ≠ "" →
      filesOf s t = (filesOf "" t).map (joinPath s)) ∧
    (∀ l, goodListB l = true → ∀ s, s ≠ "" →
      filesUnder s l = (filesUnder "" l).map (joinPath s)) := by
  refine fs_induction ?_ ?_ ?_ ?_ ?_
  · intro n m c r hg s hs
    simp [filesOf, joinPath_empty_base]
  · intro n m ch ih hg s hs
    simp only [goodNodeB, Bool.and_eq_true] at hg
    obtain ⟨⟨hname, hmt⟩, hch⟩ := hg
    have hne : nameStr n ≠ "" := (goodName_spec n hname).2.1
    simp only [filesOf]
    rw [ih hch (joinPath s (nameStr n)) (joinPath_ne_empty s _ hne),
      joinPath_empty_base, ih hch (nameStr n) hne, List.map_map]
    apply List.map_congr_left
    intro a ha
    simpa using join_assoc s (nameStr n) a hne
  · intro n hg s hs
    simp [filesOf]
  · intro hg s hs
    simp [filesUnder]
  · intro c rest ihc ihr hg s hs
    simp only [goodListB, Bool.and_eq_true] at hg
    obtain ⟨⟨hc, hrest⟩, _⟩ := hg
    simp only [filesUnder]
    rw [ihc hc s hs, ihr hrest s hs, List.map_append]

theorem takeWhile_all_eq {p : Char → Bool} {l : List Char}
    (h : ∀ c ∈ l, p c = true) : l.takeWhile p = l := by
  induction l with
  | nil => rfl
  | cons a rest ih =>
    rw [List.takeWhile_cons, if_pos (h a (List.mem_cons_self a rest))]
    rw [ih (fun c hc => h c (List.mem_cons_of_mem a hc))]

theorem takeWhile_append_stop {p : Char → Bool} {l1 : List Char} {x : Char}
    {l2 : List Char} (h : ∀ c ∈ l1, p c = true) (hx : p x = false) :
    (l1 ++ x :: l2).takeWhile p = l1 := by
  induction l1 with
  | nil => simp [List.takeWhile_cons, hx]
  | cons a rest ih =>
    rw [List.cons_append, List.takeWhile_cons,
      if_pos (h a (List.mem_cons_self a rest)),
      ih (fun c hc => h c (List.mem_cons_of_mem a hc))]

theorem headSeg_of_no_slash (s : String) (h : ∀ c ∈ s.data, c ≠ '/') :
    headSeg s = s := by
  apply String.ext
  show (s.data.takeWhile (fun c => c != '/')) = s.data
  exact takeWhile_all_eq (fun c hc => by simpa using h c hc)

theorem headSeg_join (n r : String) (hn : ∀ c ∈ n.data, c ≠ '/') :
    headSeg (n ++ "/" ++ r) = n := by
  apply String.ext
  show ((n ++ "/" ++ r).data.takeWhile (fun c => c != '/')) = n.data
  have hd : (n ++ "/" ++ r).data = n.data ++ '/' :: r.data := by
    simp [String.data_append]
  rw [hd]
  exact takeWhile_append_stop (fun c hc => by simpa using hn c hc) (by simp)

theorem files_headSeg :
    (∀ t, goodNodeB t = true → ∀ q ∈ filesOf "" t,
      headSeg q = nameStr (nameOf t)) ∧
    (∀ l, goodListB l = true → ∀ q ∈ filesUnder "" l,
      ∃ c ∈ l, headSeg q = nameStr (nameOf c)) := by
  refine fs_induction ?_ ?_ ?_ ?_ ?_
  · intro n m c r hg q hq
    simp only [goodNodeB, Bool.and_eq_true] at hg
    obtain ⟨⟨hname, _⟩, _⟩ := hg
    simp only [filesOf, joinPath_empty_base, List.mem_singleton] at hq
    subst hq
    exact headSeg_of_no_slash _ (goodName_spec n hname).2.2
  · intro n m ch ih hg q hq
    simp only [goodNodeB, Bool.and_eq_true] at hg
    obtain ⟨⟨hname, _⟩, hch⟩ := hg
    have hspec := goodName_spec n hname
    simp only [filesOf, joinPath_empty_base] at hq
    rw [files_map.2 ch hch (nameStr n) hspec.2.1] at hq
    obtain ⟨r, hr, hqr⟩ := List.mem_map.mp hq
    subst hqr
    rw [joinPath, if_neg hspec.2.1]
    exact headSeg_join (nameStr n) r hspec.2.2
  · intro n hg q hq
    simp [filesOf] at hq
  · intro hg q hq
    simp [filesUnder] at hq
  · intro c rest ihc ihr hg q hq
    simp only [goodListB, Bool.and_eq_true] at hg
    obtain ⟨⟨hc, hrest⟩, _⟩ := hg
    simp only [filesUnder, List.mem_append] at hq
    rcases hq with h | h
    · exact ⟨c, List.mem_cons_self c rest, ihc hc q h⟩
    · obtain ⟨d, hd, hhs⟩ := ihr hrest q h
      exact ⟨d, List.mem_cons_of_mem c hd, hhs⟩

theorem files_nodup :
    (∀ t, goodNodeB t = true → (filesOf "" t).Nodup) ∧
    (∀ l, goodListB l = true → (filesUnder "" l).Nodup) := by
  refine fs_induction ?_ ?_ ?_ ?_ ?_
  · intro n m c r hg
    simp [filesOf]
  · intro n m ch ih hg
    simp only [goodNodeB, Bool.and_eq_true] at hg
    obtain ⟨⟨hname, _⟩, hch⟩ := hg
    have hspec := goodName_spec n hname
    simp only [filesOf, joinPath_empty_base]
    rw [files_map.2 ch hch (nameStr n) hspec.2.1]
    exact (ih hch).map (joinPath_injective (nameStr n) hspec.2.1)
  · intro n hg
    simp [filesOf]
  · intro hg
    simp [filesUnder]
  · intro c rest ihc ihr hg
    simp only [goodListB, Bool.and_eq_true, Bool.not_eq_eq_eq_not, Bool.not_true,
      decide_eq_false_iff_not] at hg
    obtain ⟨⟨hc, hrest⟩, hnm⟩ := hg
    simp only [filesUnder]
    rw [List.nodup_append]
    refine ⟨ihc hc, ihr hrest, ?_⟩
    intro q hq1 hq2
    have h1 := files_headSeg.1 c hc q hq1
    obtain ⟨d, hd, h2⟩ := files_headSeg.2 rest hrest q hq2
    apply hnm
    rw [h1] at h2
    rw [h2]
    exact List.mem_map_of_mem (fun d => nameStr (nameOf d)) hd

theorem fileOpenPaths_append (a b : List Event) :
    fileOpenPaths (a ++ b) = fileOpenPaths a ++ fileOpenPaths b := by
  simp [fileOpenPaths]

theorem walk_files (cm : CompressionMethod) (hcm : cm = .deflate ∨ cm = .zstd) :
    (∀ t, goodNodeB t = true → ∀ base,
      (processChild t base cm).outcome = .ok ∧
      fileOpenPaths (processChild t base cm).events = filesOf base t) ∧
    (∀ l, goodListB l = true → ∀ base,
      (add_directory_to_archive l base cm).outcome = .ok ∧
      fileOpenPaths (add_directory_to_archive l base cm).events = filesUnder base l) := by
  refine fs_induction ?_ ?_ ?_ ?_ ?_
  · intro n m c r hg base
    simp only [goodNodeB, Bool.and_eq_true] at hg
    obtain ⟨⟨hname, hmt⟩, hrf⟩ := hg
    have hts := (goodName_spec n hname).1
    have hr : r = false := by simpa using hrf
    subst hr
    have hpc : processChild (.file n m c false) base cm =
        add_file_to_archive m c false (joinPath base (nameStr n)) cm := by
      simp [processChild, nameOf, hts]
    have hok := add_file_ok_paths m c (joinPath base (nameStr n)) cm hmt hcm
    rw [hpc]
    exact ⟨hok.1, by simp [filesOf, hok.2]⟩
  · intro n m ch ih hg base
    simp only [goodNodeB, Bool.and_eq_true] at hg
    obtain ⟨⟨hname, hmt⟩, hch⟩ := hg
    have hts := (goodName_spec n hname).1
    obtain ⟨t, hgt⟩ := mtimeOk_gmt m hmt
    have hpc : processChild (.dir n m ch) base cm =
        ⟨.dirEntry (joinPath base (nameStr n) ++ "/") t m.perms ::
           .adding (joinPath base (nameStr n) ++ "/") ::
           (add_directory_to_archive ch (joinPath base (nameStr n)) cm).events,
         (add_directory_to_archive ch (joinPath base (nameStr n)) cm).outcome⟩ := by
      simp [processChild, nameOf, hts, hgt]
    obtain ⟨iho, ihp⟩ := ih hch (joinPath base (nameStr n))
    rw [hpc]
    refine ⟨by simpa using iho, ?_⟩
    simp only [filesOf]
    simpa [fileOpenPaths] using ihp
  · intro n hg base
    simp only [goodNodeB] at hg
    have hts := (goodName_spec n hg).1
    have hpc : processChild (.special n) base cm = ⟨[], .ok⟩ := by
      simp [processChild, nameOf, hts]
    rw [hpc]
    exact ⟨rfl, by simp [filesOf, fileOpenPaths]⟩
  · intro hg base
    simp [add_directory_to_archive, fileOpenPaths, filesUnder]
  · intro c rest ihc ihr hg base
    simp only [goodListB, Bool.and_eq_true] at hg
    obtain ⟨⟨hc, hrest⟩, _⟩ := hg
    obtain ⟨ho1, hp1⟩ := ihc hc base
    obtain ⟨ho2, hp2⟩ := ihr hrest base
    rw [add_directory_to_archive]
    simp only [ho1]
    refine ⟨by simpa using ho2, ?_⟩
    simp only [filesUnder]
    rw [fileOpenPaths_append, hp1, hp2]

/-- C1: for every well-behaved directory tree passed as a top-level
input (valid UTF-8 names without separators, distinct sibling names,
readable post-epoch timestamps, readable contents) and either supported
codec, the archive paths of the file entries written equal exactly the
relative paths of the regular files reachable from the input (joined as
`base/name`, or `name` when the base is empty, recursion starting with the
empty base), and every such path appears exactly once. -/
theorem c1_every_file_exactly_once (children : List FsNode) (cm : CompressionMethod)
    (h : goodListB children = true) (hcm : cm = .deflate ∨ cm = .zstd) :
    fileOpenPaths (add_directory_to_archive children "" cm).events =
      filesUnder "" children ∧
    ∀ q, (fileOpenPaths (add_directory_to_archive children "" cm).events).count q =
      if q ∈ filesUnder "" children then 1 else 0 := by
  obtain ⟨ho, hp⟩ := (walk_files cm hcm).2 children h ""
  refine ⟨hp, fun q => ?_⟩
  rw [hp]
  by_cases hq : q ∈ filesUnder "" children
  · rw [if_pos hq]
    exact List.count_eq_one_of_mem (files_nodup.2 children h) hq
  · rw [if_neg hq]
    exact List.count_eq_zero.mpr hq

/-- C1 witness: the sample tree produces exactly the entries `a` and
`d/b`, and `d/b` appears exactly once. -/
theorem c1_witness :
    fileOpenPaths (add_directory_to_archive sampleTree "" .deflate).events =
      filesUnder "" sampleTree ∧
    (fileOpenPaths (add_directory_to_archive sampleTree "" .deflate).events).count
      "d/b" = 1 := by
  have h := c1_every_file_exactly_once sampleTree .deflate (by decide) (Or.inl rfl)
  refine ⟨h.1, ?_⟩
  have h2 := h.2 "d/b"
  rw [if_pos (show "d/b" ∈ filesUnder "" sampleTree by decide)] at h2
  exact h2

end RawzipWrite
